import Mathlib

/-!
# Morse beeper (`src/morse.c`)

A shallow embedding of the Morse transmitter: the symbol table `chars`, the
timing arithmetic of `main` and `beep`, and the read loop of `main` that turns
input bytes into calls of `beep` and `usleep`.

Conventions of the embedding.

* A `char` is a byte, held as a `Nat` below 256.  The program targets the
  Raspberry Pi (`pinctrl-bcm2835`), where plain `char` is unsigned; the loop
  test `c != 0xFF` of `main` relies on it.
* `toupper` and `isspace` are the C library functions in the "C" locale (the
  program never calls `setlocale`).
* The observable behaviour of the read loop is the sequence of its calls
  `beep(line, len)` and `usleep(len)`, recorded as `Event.tone len` and
  `Event.silence len`.  The `verbose` printing is left out: it touches neither.
* `dit` is at most 1200000, so `dit*2`, `dit*3` and `dit*7` stay far below
  `2^31` and the `int` products are exact (`ditMicros_products_fit`).
-/

namespace Morse

/-! ## Data model -/

/-- One element of a Morse pattern. -/
inductive Mark
  | DOT
  | DASH
  deriving DecidableEq

/-- What the read loop of `main` does to the outside: `tone len` is a call
`beep(line, len)`, `silence len` is a call `usleep(len)` made by `main`. -/
inductive Event
  | tone (len : Nat)
  | silence (len : Nat)
  deriving DecidableEq

/-- What `beep` does to the outside: `write v` is
`gpiod_line_set_value(line, v)`, `sleep us` is `usleep(us)` made by `beep`. -/
inductive LineOp
  | write (v : Nat)
  | sleep (us : Nat)
  deriving DecidableEq

/-- The table `chars` of `morse.c`, lines 59-111, entry for entry: the first
character of an entry is the key, the rest is the pattern. -/
def chars : List String := [
  "A.-",
  "B-...",
  "C-.-.",
  "D-..",
  "E.",
  "F..-.",
  "G--.",
  "H....",
  "I..",
  "J.---",
  "K-.-",
  "L.-..",
  "M--",
  "N-.",
  "O---",
  "P.--.",
  "Q--.-",
  "R.-.",
  "S...",
  "T-",
  "U..--",
  "V...-",
  "W.--",
  "X-..-",
  "Y-.--",
  "Z--..",
  "1.----",
  "2..---",
  "3...--",
  "4....-",
  "5.....",
  "6-....",
  "7--...",
  "8---..",
  "9----.",
  "0-----",
  "..-.-.-",
  ",--..--",
  "?..--..",
  "'.----.",
  "!-.-.--",
  "/-..-.",
  "(-.--.",
  ")-.--.-",
  "&.-...",
  ":---...",
  ";-.-.-.",
  "=-...-",
  "+.-.-.",
  "--....-",
  "_..--.-"
]

/-- The key of a table entry, `*chars[i]`: its first byte (the terminating NUL
for an empty string). -/
def entryKey (s : String) : Nat := (s.toList.headD (Char.ofNat 0)).toNat

/-- The pattern of a table entry: the characters `*(chars[i]+j)` for
`j = 1, 2, ...` up to the terminating NUL. -/
def entryPattern (s : String) : List Char := s.toList.tail

/-- The mark the inner loop of `main` plays for a pattern character: a dot for
`'.'`, a dash for anything else (lines 243-246). -/
def markOf (ch : Char) : Mark := if ch = '.' then Mark.DOT else Mark.DASH

/-- The length passed to `beep` for a mark: `dit` or `dit*3`. -/
def markLength (dit : Nat) : Mark → Nat
  | Mark.DOT => dit
  | Mark.DASH => dit * 3

/-! ## C library functions used by `main` -/

/-- `toupper` in the "C" locale: `a`-`z` go to `A`-`Z`, every other value is
returned unchanged. -/
def toupper (c : Nat) : Nat := if 97 ≤ c ∧ c ≤ 122 then c - 32 else c

/-- `isspace` in the "C" locale: space, `\t`, `\n`, `\v`, `\f`, `\r`. -/
def isspace (c : Nat) : Bool := c == 32 || (decide (9 ≤ c) && decide (c ≤ 13))

/-! ## Timing -/

/-- Line 199 of `main`: `dit=(1200/wpm) * 1000`, with `wpm` an
`unsigned int`.  The quotient is at most 1200, so the product never wraps. -/
def ditMicros (wpm : Nat) : Nat := (1200 / wpm) * 1000

/-- The argument of `usleep` in `beep`, line 184: `500000/freq` with `freq` an
`int` (C division truncates toward zero), converted to the unsigned 32-bit
`useconds_t`. -/
def halfPeriod (freq : Int) : Nat := (Int.tdiv 500000 freq % 2 ^ 32).toNat

/-! ## `beep` -/

/-- The `while` loop of `beep`, lines 181-187.  `clock k` is the value of
`now_time` after `k` sleeps (the elapsed microseconds computed from
`clock_gettime`), `k` counts the iterations done so far and `bit` is the
variable `bit`.  `fuel` bounds the number of iterations unrolled: the result
is `none` when the loop is still running after `fuel` iterations. -/
def beepLoop (freq : Int) (clock : Nat → Nat) (end_time : Nat) :
    Nat → Nat → Nat → Option (List LineOp)
  | 0, k, _ => if end_time > clock k then none else some []
  | fuel + 1, k, bit =>
    if end_time > clock k then
      (beepLoop freq clock end_time fuel (k + 1) (bit + 1)).map
        (fun ops => LineOp.write (bit % 2) :: LineOp.sleep (halfPeriod freq) :: ops)
    else some []

/-- The function `beep`, lines 172-188: `now_time` is first read as `clock 0`,
`end_time = now_time + length`, `bit = 0`. -/
def beep (freq : Int) (clock : Nat → Nat) (length : Nat) (fuel : Nat) :
    Option (List LineOp) :=
  beepLoop freq clock (clock 0 + length) fuel 0 0

/-- The arguments of the `usleep` calls among the operations of `beep`. -/
def sleepArgs : List LineOp → List Nat
  | [] => []
  | LineOp.sleep us :: ops => us :: sleepArgs ops
  | LineOp.write _ :: ops => sleepArgs ops

/-- The values written to the line among the operations of `beep`. -/
def writtenValues : List LineOp → List Nat
  | [] => []
  | LineOp.write v :: ops => v :: writtenValues ops
  | LineOp.sleep _ :: ops => writtenValues ops

/-! ## The read loop of `main` -/

/-- The loop over `j` of `main`, lines 239-249: for each pattern character a
`beep` of `dit` (for `'.'`) or `dit*3` (otherwise), then `usleep(dit)`. -/
def emitPattern (dit : Nat) : List Char → List Event
  | [] => []
  | ch :: rest =>
    (if ch = '.' then Event.tone dit else Event.tone (dit * 3))
      :: Event.silence dit :: emitPattern dit rest

/-- The body run for the matching table entry, lines 239-250: the pattern,
then `usleep(dit*2)`. -/
def emitEntry (dit : Nat) (s : String) : List Event :=
  emitPattern dit (entryPattern s) ++ [Event.silence (dit * 2)]

/-- The search of the loop over `i`, lines 237-238 and the `break` of line
251: the first entry of the table whose key is `c`. -/
def findEntry (c : Nat) : List String → Option String
  | [] => none
  | s :: rest => if c = entryKey s then some s else findEntry c rest

/-- The loop over `i` of `main`, lines 237-253, run on a table: the body of
the first entry whose key is `c`, nothing when no entry matches. -/
def scanTable (dit c : Nat) : List String → List Event
  | [] => []
  | s :: rest => if c = entryKey s then emitEntry dit s else scanTable dit c rest

/-- One iteration of the `while` loop of `main`, lines 231-254, for the byte
`b` just read. -/
def processChar (dit b : Nat) : List Event :=
  let c := toupper b
  if isspace c then [Event.silence (dit * 7)] else scanTable dit c chars

/-- The `while` loop of `main`, lines 229-257, over the bytes of standard
input.  At the end of the input `getc` returns `EOF`, which the assignment to
`char c` turns into `0xFF`; the loop stops there, and likewise at an input
byte `0xFF`. -/
def transmit (dit : Nat) : List Nat → List Event
  | [] => []
  | b :: rest => if b = 0xFF then [] else processChar dit b ++ transmit dit rest

/-! ## Views used to state the properties -/

/-- The pattern the table holds for the character `c`, as marks; `none` when
no entry has key `c`. -/
def lookup (c : Nat) : Option (List Mark) :=
  (findEntry c chars).map (fun s => (entryPattern s).map markOf)

/-- The marks of the character `c` in the table, empty when the table has no
entry for `c`. -/
def marksOf (c : Nat) : List Mark := (lookup c).getD []

/-- The bytes of an ASCII text. -/
def bytes (s : String) : List Nat := s.toList.map Char.toNat

/-- The supported characters as the specification lists them: `A`-`Z`,
`0`-`9`, and the punctuation marks `. , ? ' ! / ( ) & : ; = + -` and
underscore. -/
def supported : List Nat :=
  (List.range 26).map (fun i => 65 + i) ++ (List.range 10).map (fun i => 48 + i)
    ++ ['.', ',', '?', Char.ofNat 39, '!', '/', '(', ')', '&', ':', ';', '=', '+', '-', '_'].map
      Char.toNat

/-- The six whitespace characters: space, tab, newline, vertical tab, form
feed, carriage return. -/
def whitespace : List Nat := [32, 9, 10, 11, 12, 13]

/-- International Morse Code, the reference the table is compared with
(Recommendation ITU-R M.1677-1 for letters, digits and `. , ? ' / ( ) : = + -`,
and the customary signs for `! & ; _`). -/
def internationalMorse : List (Char × List Mark) :=
  open Mark in [
  ('A', [DOT, DASH]),
  ('B', [DASH, DOT, DOT, DOT]),
  ('C', [DASH, DOT, DASH, DOT]),
  ('D', [DASH, DOT, DOT]),
  ('E', [DOT]),
  ('F', [DOT, DOT, DASH, DOT]),
  ('G', [DASH, DASH, DOT]),
  ('H', [DOT, DOT, DOT, DOT]),
  ('I', [DOT, DOT]),
  ('J', [DOT, DASH, DASH, DASH]),
  ('K', [DASH, DOT, DASH]),
  ('L', [DOT, DASH, DOT, DOT]),
  ('M', [DASH, DASH]),
  ('N', [DASH, DOT]),
  ('O', [DASH, DASH, DASH]),
  ('P', [DOT, DASH, DASH, DOT]),
  ('Q', [DASH, DASH, DOT, DASH]),
  ('R', [DOT, DASH, DOT]),
  ('S', [DOT, DOT, DOT]),
  ('T', [DASH]),
  ('U', [DOT, DOT, DASH]),
  ('V', [DOT, DOT, DOT, DASH]),
  ('W', [DOT, DASH, DASH]),
  ('X', [DASH, DOT, DOT, DASH]),
  ('Y', [DASH, DOT, DASH, DASH]),
  ('Z', [DASH, DASH, DOT, DOT]),
  ('1', [DOT, DASH, DASH, DASH, DASH]),
  ('2', [DOT, DOT, DASH, DASH, DASH]),
  ('3', [DOT, DOT, DOT, DASH, DASH]),
  ('4', [DOT, DOT, DOT, DOT, DASH]),
  ('5', [DOT, DOT, DOT, DOT, DOT]),
  ('6', [DASH, DOT, DOT, DOT, DOT]),
  ('7', [DASH, DASH, DOT, DOT, DOT]),
  ('8', [DASH, DASH, DASH, DOT, DOT]),
  ('9', [DASH, DASH, DASH, DASH, DOT]),
  ('0', [DASH, DASH, DASH, DASH, DASH]),
  ('.', [DOT, DASH, DOT, DASH, DOT, DASH]),
  (',', [DASH, DASH, DOT, DOT, DASH, DASH]),
  ('?', [DOT, DOT, DASH, DASH, DOT, DOT]),
  (Char.ofNat 39, [DOT, DASH, DASH, DASH, DASH, DOT]),
  ('!', [DASH, DOT, DASH, DOT, DASH, DASH]),
  ('/', [DASH, DOT, DOT, DASH, DOT]),
  ('(', [DASH, DOT, DASH, DASH, DOT]),
  (')', [DASH, DOT, DASH, DASH, DOT, DASH]),
  ('&', [DOT, DASH, DOT, DOT, DOT]),
  (':', [DASH, DASH, DASH, DOT, DOT, DOT]),
  (';', [DASH, DOT, DASH, DOT, DASH, DOT]),
  ('=', [DASH, DOT, DOT, DOT, DASH]),
  ('+', [DOT, DASH, DOT, DASH, DOT]),
  ('-', [DASH, DOT, DOT, DOT, DOT, DASH]),
  ('_', [DOT, DOT, DASH, DASH, DOT, DASH])
]

/-- The International Morse Code pattern of the character `c`. -/
def referencePattern (c : Nat) : Option (List Mark) :=
  (internationalMorse.find? (fun e => e.1.toNat == c)).map (fun e => e.2)

/-- The silence that follows directly: the sum of the `silence` events at the
head of a trace, up to the next tone. -/
def leadingSilence : List Event → Nat
  | Event.silence d :: es => d + leadingSilence es
  | _ => 0

/-- A trace read as a listener hears it: each tone with the total silence
between its end and the start of the next tone (or the end of the trace). -/
def segments : List Event → List (Nat × Nat)
  | [] => []
  | Event.silence _ :: es => segments es
  | Event.tone t :: es => (t, leadingSilence es) :: segments es

/-- The tones of a trace, in order. -/
def tones : List Event → List Nat
  | [] => []
  | Event.silence _ :: es => tones es
  | Event.tone t :: es => t :: tones es

/-- The marks of one character as a listener hears them: each mark followed by
one dit of silence, the last one by `lastGap`. -/
def markGaps (dit lastGap : Nat) : List Mark → List (Nat × Nat)
  | [] => []
  | [m] => [(markLength dit m, lastGap)]
  | m :: ms => (markLength dit m, dit) :: markGaps dit lastGap ms

/-- The events of one character with pattern `p`, as the specification words
them: per mark a tone and one dit of silence, then two dits of silence. -/
def charEvents (dit : Nat) (p : List Mark) : List Event :=
  p.flatMap (fun m => [Event.tone (markLength dit m), Event.silence dit])
    ++ [Event.silence (2 * dit)]

/-- The operations of `n` consecutive iterations of the loop body of `beep`,
the first one run with the variable `bit` at `bit`: a write of `bit & 1`, then
the sleep. -/
def beepOps (freq : Int) : Nat → Nat → List LineOp
  | _, 0 => []
  | bit, n + 1 =>
    LineOp.write (bit % 2) :: LineOp.sleep (halfPeriod freq) :: beepOps freq (bit + 1) n

/-- The quotient `d / h` rounded up. -/
def ceilDiv (d h : Nat) : Nat := (d + h - 1) / h

/-- The length of an event: the argument of its `beep` or `usleep`. -/
def eventLength : Event → Nat
  | Event.tone len => len
  | Event.silence len => len

/-! ## Option parsing and start-up -/

/-- The decimal digits at the head of a text, read as `atoi` reads them. -/
def atoiDigits (acc : Nat) : List Char → Nat
  | [] => acc
  | ch :: rest =>
    if 48 ≤ ch.toNat ∧ ch.toNat ≤ 57 then atoiDigits (acc * 10 + (ch.toNat - 48)) rest
    else acc

/-- The C library function `atoi`: leading whitespace is skipped, an optional
sign is read, then the decimal digits up to the first other character; a text
without digits gives 0.  The result is the decimal value read, which is what
C's `atoi` returns whenever that value fits an `int`, that is from `-2^31` up
to `2^31 - 1`; for a value outside that range C leaves the result undefined.
The properties of the options are therefore stated for arguments whose value
is in that range. -/
def atoi (s : String) : Int :=
  match s.toList.dropWhile (fun ch => isspace ch.toNat) with
  | [] => 0
  | ch :: rest =>
    if ch = '-' then -(atoiDigits 0 rest : Int)
    else if ch = '+' then (atoiDigits 0 rest : Int)
    else (atoiDigits 0 (ch :: rest) : Int)

/-- The globals set by `initOpts`, lines 51-55. -/
structure Config where
  verbose : Bool
  gpio : Int
  freq : Int
  wpm : Nat
  deriving DecidableEq

/-- The initial values of the globals: `GPIO`, `HZ`, `WPM`, `verbose=FALSE`. -/
def defaultConfig : Config := { verbose := false, gpio := 10, freq := 800, wpm := 18 }

/-- One option as `getopt` hands it to the `switch` of `initOpts`, with its
argument `optarg`; `other` is the return value `'?'`. -/
inductive Opt
  | h (optarg : String)
  | g (optarg : String)
  | v
  | w (optarg : String)
  | other
  deriving DecidableEq

/-- How `initOpts` ends the process: `invalid opt i` is the call of `fatal`
with the message `invalid -opt option (i)`, `usage` is the `default` branch;
both exit with `EXIT_FAILURE`. -/
inductive Failure
  | invalid (opt : Char) (i : Int)
  | usage
  deriving DecidableEq

/-- The `switch` of `initOpts`, lines 146-168, for one option. -/
def applyOpt (cfg : Config) : Opt → Except Failure Config
  | Opt.h optarg =>
    let i := atoi optarg
    if i ≥ 1 then Except.ok { cfg with freq := i } else Except.error (Failure.invalid 'h' i)
  | Opt.g optarg =>
    let i := atoi optarg
    if i ≥ 1 ∧ i ≤ 31 then Except.ok { cfg with gpio := i }
    else Except.error (Failure.invalid 'g' i)
  | Opt.v => Except.ok { cfg with verbose := true }
  | Opt.w optarg =>
    let i := atoi optarg
    if i ≥ 1 then Except.ok { cfg with wpm := i.toNat }
    else Except.error (Failure.invalid 'w' i)
  | Opt.other => Except.error Failure.usage

/-- The `while` loop of `initOpts`, lines 143-169, over the options in the
order `getopt` returns them; the first failure ends the process. -/
def initOpts (cfg : Config) : List Opt → Except Failure Config
  | [] => Except.ok cfg
  | o :: rest =>
    match applyOpt cfg o with
    | Except.ok cfg1 => initOpts cfg1 rest
    | Except.error f => Except.error f

/-- The answers of the GPIO library to the three requests of `main`. -/
structure Hardware where
  chip_ok : Bool
  line_ok : Bool
  request_ok : Bool

/-- The calls of `main` to the GPIO library. -/
inductive Step
  | chip_open
  | get_line (gpio : Int)
  | request_output
  | line_release
  | chip_close
  deriving DecidableEq

/-- How a run of `main` ends: `failed` in `initOpts`; `hardware` after a GPIO
request failed (`exit(errno)`), with the GPIO calls made; `finished` with the
dit computed at line 199, the GPIO calls made and the events of the read
loop. -/
inductive Outcome
  | failed (f : Failure)
  | hardware (dit : Nat) (steps : List Step)
  | finished (dit : Nat) (steps : List Step) (trace : List Event)
  deriving DecidableEq

/-- The function `main`, lines 191-263: the options, the dit, the three GPIO
requests, the read loop, the release. -/
def main (opts : List Opt) (hw : Hardware) (input : List Nat) : Outcome :=
  match initOpts defaultConfig opts with
  | Except.error f => Outcome.failed f
  | Except.ok cfg =>
    let dit := ditMicros cfg.wpm
    if !hw.chip_ok then Outcome.hardware dit [Step.chip_open]
    else if !hw.line_ok then
      Outcome.hardware dit [Step.chip_open, Step.get_line cfg.gpio, Step.chip_close]
    else if !hw.request_ok then
      Outcome.hardware dit [Step.chip_open, Step.get_line cfg.gpio, Step.request_output,
        Step.line_release, Step.chip_close]
    else
      Outcome.finished dit [Step.chip_open, Step.get_line cfg.gpio, Step.request_output,
        Step.line_release, Step.chip_close] (transmit dit input)

/-- No overflow in the timing products of `main`: `dit` is at most 1200000. -/
theorem ditMicros_products_fit (wpm : Nat) :
    ditMicros wpm ≤ 1200000 ∧ ditMicros wpm * 7 < 2 ^ 31 := by
  have h : 1200 / wpm ≤ 1200 := Nat.div_le_self 1200 wpm
  unfold ditMicros
  omega

/-- The loop over `i` plays the body of the entry the search finds. -/
theorem scanTable_eq_findEntry (dit c : Nat) (t : List String) :
    scanTable dit c t = match findEntry c t with
      | some s => emitEntry dit s
      | none => [] := by
  induction t with
  | nil => rfl
  | cons s rest ih =>
    unfold scanTable findEntry
    by_cases h : c = entryKey s
    · simp [h]
    · simp only [h, if_false]
      exact ih

/-- The loop over `j` plays, for each mark, its tone and one dit of silence. -/
theorem emitPattern_eq (dit : Nat) (p : List Char) :
    emitPattern dit p
      = (p.map markOf).flatMap
          (fun m => [Event.tone (markLength dit m), Event.silence dit]) := by
  induction p with
  | nil => rfl
  | cons ch rest ih =>
    unfold emitPattern
    rw [ih]
    by_cases h : ch = '.'
    · simp [h, markOf, markLength]
    · simp [h, markOf, markLength]

/-- What one loop iteration does for a character the table knows. -/
theorem processChar_of_lookup (dit b : Nat) (p : List Mark)
    (hs : isspace (toupper b) = false) (hl : lookup (toupper b) = some p) :
    processChar dit b = charEvents dit p := by
  unfold processChar
  simp only [hs, Bool.false_eq_true, if_false]
  rw [scanTable_eq_findEntry]
  unfold lookup at hl
  cases hf : findEntry (toupper b) chars with
  | none => rw [hf] at hl; simp at hl
  | some s =>
    rw [hf] at hl
    simp only [Option.map_some', Option.some.injEq] at hl
    simp only [emitEntry, charEvents, emitPattern_eq, hl, Nat.mul_comm dit 2]

/-- What one loop iteration does for a character the table does not know. -/
theorem processChar_of_lookup_none (dit b : Nat)
    (hs : isspace (toupper b) = false) (hl : lookup (toupper b) = none) :
    processChar dit b = [] := by
  unfold processChar
  simp only [hs, Bool.false_eq_true, if_false]
  rw [scanTable_eq_findEntry]
  unfold lookup at hl
  cases hf : findEntry (toupper b) chars with
  | none => rfl
  | some s => rw [hf] at hl; simp at hl

/-- Facts about the supported characters, checked entry by entry: none is
changed by `toupper`, none is whitespace, none is the byte `0xFF`, and each has
a non-empty pattern in the table. -/
theorem supported_facts :
    ∀ c ∈ supported, toupper c = c ∧ isspace c = false ∧ c ≠ 0xFF
      ∧ (lookup c).isSome = true ∧ lookup c ≠ some [] := by
  decide

/-- The marks of a supported character are those the table holds for it. -/
theorem processChar_supported (dit c : Nat) (hc : c ∈ supported) :
    processChar dit c = charEvents dit (marksOf c) ∧ marksOf c ≠ [] := by
  obtain ⟨hu, hs, _, hsome, hne⟩ := supported_facts c hc
  cases hl : lookup c with
  | none => rw [hl] at hsome; simp at hsome
  | some p =>
    have hp : marksOf c = p := by simp [marksOf, hl]
    rw [hp]
    constructor
    · apply processChar_of_lookup
      · rw [hu]; exact hs
      · rw [hu]; exact hl
    · intro h
      rw [h] at hl
      exact hne hl

/-! ## Lemmas on traces -/

/-- The events of a character begin with a tone, so no silence leads them. -/
theorem leadingSilence_charEvents (dit : Nat) (p : List Mark) (hp : p ≠ [])
    (rest : List Event) : leadingSilence (charEvents dit p ++ rest) = 0 := by
  cases p with
  | nil => exact absurd rfl hp
  | cons m ms => simp [charEvents, leadingSilence]

/-- A character as heard: one dit after each mark, and after the last one the
three dits of the character plus whatever silence comes next. -/
theorem segments_charEvents (dit : Nat) (p : List Mark) (hp : p ≠ [])
    (rest : List Event) :
    segments (charEvents dit p ++ rest)
      = markGaps dit (3 * dit + leadingSilence rest) p ++ segments rest := by
  induction p with
  | nil => exact absurd rfl hp
  | cons m ms ih =>
    have hstep : charEvents dit (m :: ms) ++ rest
        = Event.tone (markLength dit m) :: Event.silence dit
            :: (charEvents dit ms ++ rest) := by
      simp [charEvents]
    have hseg : ∀ es : List Event,
        segments (Event.tone (markLength dit m) :: Event.silence dit :: es)
          = (markLength dit m, dit + leadingSilence es) :: segments es := fun _ => rfl
    rw [hstep, hseg]
    cases ms with
    | nil =>
      have hnil : charEvents dit [] ++ rest = Event.silence (2 * dit) :: rest := rfl
      have hls : leadingSilence (Event.silence (2 * dit) :: rest)
          = 2 * dit + leadingSilence rest := rfl
      have hsg : segments (Event.silence (2 * dit) :: rest) = segments rest := rfl
      rw [hnil, hls, hsg]
      have harith : dit + (2 * dit + leadingSilence rest)
          = 3 * dit + leadingSilence rest := by omega
      rw [harith]
      rfl
    | cons m2 ms2 =>
      have hne : m2 :: ms2 ≠ [] := by simp
      rw [leadingSilence_charEvents dit _ hne, ih hne]
      rfl

/-- Every event of a character is a tone, a silence of one dit or a silence
of two dits. -/
theorem mem_charEvents (dit : Nat) (p : List Mark) (e : Event)
    (he : e ∈ charEvents dit p) :
    (∃ t, e = Event.tone t) ∨ e = Event.silence dit ∨ e = Event.silence (2 * dit) := by
  simp only [charEvents, List.mem_append, List.mem_flatMap, List.mem_cons,
    List.mem_singleton, List.not_mem_nil, or_false] at he
  rcases he with ⟨m, _, h | h⟩ | h
  · exact Or.inl ⟨_, h⟩
  · exact Or.inr (Or.inl h)
  · exact Or.inr (Or.inr h)

/-- The read loop over supported characters: the characters one after the
other, each with its own events. -/
theorem transmit_supported (dit : Nat) (input : List Nat)
    (h : ∀ c ∈ input, c ∈ supported) :
    transmit dit input = input.flatMap (fun c => charEvents dit (marksOf c)) := by
  induction input with
  | nil => rfl
  | cons c rest ih =>
    have hc : c ∈ supported := h c (List.mem_cons_self c rest)
    have hrest : ∀ x ∈ rest, x ∈ supported := fun x hx => h x (List.mem_cons_of_mem c hx)
    obtain ⟨_, _, hff, _, _⟩ := supported_facts c hc
    unfold transmit
    rw [if_neg hff, (processChar_supported dit c hc).1, ih hrest, List.flatMap_cons]

/-- Supported characters as heard: within each character one dit after every
mark, and three dits after its last mark. -/
theorem segments_flatMap_supported (dit : Nat) (input : List Nat)
    (h : ∀ c ∈ input, c ∈ supported) :
    segments (input.flatMap (fun c => charEvents dit (marksOf c)))
      = input.flatMap (fun c => markGaps dit (3 * dit) (marksOf c)) := by
  induction input with
  | nil => rfl
  | cons c rest ih =>
    have hc : c ∈ supported := h c (List.mem_cons_self c rest)
    have hrest : ∀ x ∈ rest, x ∈ supported := fun x hx => h x (List.mem_cons_of_mem c hx)
    have hne := (processChar_supported dit c hc).2
    rw [List.flatMap_cons, List.flatMap_cons, segments_charEvents dit _ hne, ih hrest]
    cases rest with
    | nil => simp [leadingSilence]
    | cons c2 rest2 =>
      have hc2 : c2 ∈ supported := hrest c2 (List.mem_cons_self c2 rest2)
      rw [List.flatMap_cons,
        leadingSilence_charEvents dit _ (processChar_supported dit c2 hc2).2]
      rfl

/-- A key is found exactly when it is the key of some entry. -/
theorem findEntry_isSome (c : Nat) (t : List String) :
    (findEntry c t).isSome = true ↔ c ∈ t.map entryKey := by
  induction t with
  | nil => simp [findEntry]
  | cons s rest ih =>
    unfold findEntry
    by_cases h : c = entryKey s
    · simp [h]
    · simp [h, ih]

/-- The keys of `chars` are the supported characters and nothing else. -/
theorem keys_eq_supported :
    (∀ k ∈ chars.map entryKey, k ∈ supported) ∧ (∀ c ∈ supported, c ∈ chars.map entryKey) := by
  decide

/-- `toupper` never moves a character into or out of whitespace. -/
theorem isspace_toupper (c : Nat) : isspace (toupper c) = isspace c := by
  unfold toupper
  by_cases h : 97 ≤ c ∧ c ≤ 122
  · rw [if_pos h]
    have h1 : isspace (c - 32) = false := by
      simp only [isspace, Bool.or_eq_false_iff, beq_eq_false_iff_ne, Bool.and_eq_false_iff,
        decide_eq_false_iff_not]
      omega
    have h2 : isspace c = false := by
      simp only [isspace, Bool.or_eq_false_iff, beq_eq_false_iff_ne, Bool.and_eq_false_iff,
        decide_eq_false_iff_not]
      omega
    rw [h1, h2]
  · rw [if_neg h]

/-- A whitespace character costs one silence of seven dits, whatever was sent
before it. -/
theorem processChar_whitespace (dit c : Nat) (hc : c ∈ whitespace) :
    processChar dit c = [Event.silence (7 * dit)] := by
  have hu : toupper c = c ∧ isspace c = true := by
    revert c
    decide
  unfold processChar
  simp only [hu.1, hu.2, if_true, Nat.mul_comm dit 7]

/-- Every sleep of `beep` is for the half-period, one sleep per write. -/
theorem beepLoop_sleepArgs (freq : Int) (clock : Nat → Nat) (end_time : Nat) :
    ∀ (fuel k bit : Nat) (ops : List LineOp),
      beepLoop freq clock end_time fuel k bit = some ops →
        sleepArgs ops = List.replicate (writtenValues ops).length (halfPeriod freq) := by
  intro fuel
  induction fuel with
  | zero =>
    intro k bit ops h
    unfold beepLoop at h
    by_cases hc : end_time > clock k
    · rw [if_pos hc] at h; exact Option.noConfusion h
    · rw [if_neg hc] at h
      cases h
      rfl
  | succ fuel ih =>
    intro k bit ops h
    unfold beepLoop at h
    by_cases hc : end_time > clock k
    · rw [if_pos hc] at h
      cases hr : beepLoop freq clock end_time fuel (k + 1) (bit + 1) with
      | none => rw [hr] at h; exact Option.noConfusion h
      | some tl =>
        rw [hr] at h
        simp only [Option.map_some', Option.some.injEq] at h
        subst h
        have := ih (k + 1) (bit + 1) tl hr
        simp only [sleepArgs, writtenValues, List.length_cons, List.replicate_succ, this]
    · rw [if_neg hc] at h
      cases h
      rfl

/-- For a frequency of at least 1 the C quotient `500000/freq`, as passed to
`usleep`, is the quotient of natural numbers. -/
theorem halfPeriod_nat (freq : Int) (hf : 1 ≤ freq) :
    halfPeriod freq = 500000 / freq.toNat := by
  obtain ⟨n, rfl⟩ := Int.eq_ofNat_of_zero_le (show (0 : Int) ≤ freq by omega)
  have h1 : Int.tdiv 500000 (n : Int) = ((500000 / n : Nat) : Int) :=
    (Int.ofNat_tdiv 500000 n).symm
  have h2 : (500000 / n : Nat) ≤ 500000 := Nat.div_le_self _ _
  have h3 : ((500000 / n : Nat) : Int) % 2 ^ 32 = ((500000 / n : Nat) : Int) := by
    apply Int.emod_eq_of_lt
    · exact Int.ofNat_nonneg _
    · have : ((500000 / n : Nat) : Int) ≤ 500000 := by exact_mod_cast h2
      omega
  unfold halfPeriod
  rw [h1, h3, Int.toNat_natCast, Int.toNat_natCast]

/-- `toupper` applied twice is `toupper`. -/
theorem toupper_idem (c : Nat) : toupper (toupper c) = toupper c := by
  unfold toupper
  by_cases h : 97 ≤ c ∧ c ≤ 122
  · rw [if_pos h]
    have h2 : ¬ (97 ≤ c - 32 ∧ c - 32 ≤ 122) := by omega
    rw [if_neg h2]
  · rw [if_neg h, if_neg h]

/-- A loop iteration sees only the upper-case form of the byte read. -/
theorem processChar_toupper (dit b : Nat) :
    processChar dit (toupper b) = processChar dit b := by
  unfold processChar
  simp only [toupper_idem]

/-- The read loop over an input without the byte `0xFF`: the iterations one
after the other, whatever follows. -/
theorem transmit_append (dit : Nat) (s t : List Nat) (hs : 0xFF ∉ s) :
    transmit dit (s ++ t) = s.flatMap (processChar dit) ++ transmit dit t := by
  induction s with
  | nil => rfl
  | cons b rest ih =>
    have hb : b ≠ 0xFF := fun h => hs (by rw [h]; exact List.mem_cons_self _ _)
    have hrest : 0xFF ∉ rest := fun h => hs (List.mem_cons_of_mem _ h)
    have hstep : transmit dit (b :: rest ++ t)
        = if b = 0xFF then [] else processChar dit b ++ transmit dit (rest ++ t) := rfl
    rw [hstep, if_neg hb, ih hrest, List.flatMap_cons, List.append_assoc]

/-- The read loop stops at the byte `0xFF`: nothing after it is read. -/
theorem transmit_stops_at_FF (dit : Nat) (s t : List Nat) (hs : 0xFF ∉ s) :
    transmit dit (s ++ 0xFF :: t) = transmit dit s := by
  have h1 := transmit_append dit s (0xFF :: t) hs
  have h2 := transmit_append dit s [] hs
  rw [List.append_nil] at h2
  rw [h1, h2]
  rfl

/-- The loop of `beep` runs exactly up to the first reading that reaches
`end_time`: if the readings `k, ..., k+n-1` are below `end_time` and the
reading `k+n` is not, the loop does `n` iterations and returns. -/
theorem beepLoop_first_reading (freq : Int) (clock : Nat → Nat) (end_time : Nat) :
    ∀ (n fuel k bit : Nat), n ≤ fuel →
      (∀ j, j < n → end_time > clock (k + j)) → ¬ end_time > clock (k + n) →
      beepLoop freq clock end_time fuel k bit = some (beepOps freq bit n) := by
  intro n
  induction n with
  | zero =>
    intro fuel k bit _ _ hstop
    rw [Nat.add_zero] at hstop
    cases fuel with
    | zero => unfold beepLoop; rw [if_neg hstop]; rfl
    | succ fuel => unfold beepLoop; rw [if_neg hstop]; rfl
  | succ n ih =>
    intro fuel k bit hfuel hrun hstop
    cases fuel with
    | zero => omega
    | succ fuel =>
      have h0 : end_time > clock k := by
        have := hrun 0 (Nat.succ_pos n)
        rwa [Nat.add_zero] at this
      have hrun2 : ∀ j, j < n → end_time > clock (k + 1 + j) := by
        intro j hj
        have := hrun (j + 1) (by omega)
        have he : k + (j + 1) = k + 1 + j := by omega
        rwa [he] at this
      have hstop2 : ¬ end_time > clock (k + 1 + n) := by
        have he : k + (n + 1) = k + 1 + n := by omega
        rwa [he] at hstop
      unfold beepLoop
      rw [if_pos h0, ih fuel (k + 1) (bit + 1) (by omega) hrun2 hstop2]
      rfl

/-- The values written by `n` iterations alternate, starting from `bit & 1`. -/
theorem writtenValues_beepOps (freq : Int) (n : Nat) :
    ∀ bit, writtenValues (beepOps freq bit n) = (List.range n).map (fun j => (bit + j) % 2) := by
  induction n with
  | zero => intro bit; rfl
  | succ n ih =>
    intro bit
    have h1 : writtenValues (beepOps freq bit (n + 1))
        = (bit % 2) :: writtenValues (beepOps freq (bit + 1) n) := rfl
    rw [h1, ih (bit + 1), List.range_succ_eq_map, List.map_cons, List.map_map]
    congr 1
    apply List.map_congr_left
    intro j _
    show (bit + 1 + j) % 2 = (bit + (j + 1)) % 2
    congr 1
    omega

/-- The sleeps of `n` iterations: `n` times the half-period. -/
theorem sleepArgs_beepOps (freq : Int) (n : Nat) :
    ∀ bit, sleepArgs (beepOps freq bit n) = List.replicate n (halfPeriod freq) := by
  induction n with
  | zero => intro bit; rfl
  | succ n ih =>
    intro bit
    have h1 : sleepArgs (beepOps freq bit (n + 1))
        = halfPeriod freq :: sleepArgs (beepOps freq (bit + 1) n) := rfl
    rw [h1, ih (bit + 1)]
    rfl

/-- A clock that advances by at least one microsecond per iteration is, after
`k` iterations, at least `k` microseconds past its first reading. -/
theorem clock_advance (clock : Nat → Nat) (hadv : ∀ k, clock k + 1 ≤ clock (k + 1)) :
    ∀ k, clock 0 + k ≤ clock k := by
  intro k
  induction k with
  | zero => exact Nat.le_refl _
  | succ k ih =>
    have := hadv k
    omega

/-- A call of `beep` with a length above zero that returns has written the
line: its first operations are a write of 0 and a sleep. -/
theorem beep_first_write (freq : Int) (clock : Nat → Nat) (length fuel : Nat)
    (ops : List LineOp) (hpos : 0 < length)
    (hb : beep freq clock length fuel = some ops) :
    ∃ rest, ops = LineOp.write 0 :: LineOp.sleep (halfPeriod freq) :: rest := by
  have h0 : clock 0 + length > clock 0 := by omega
  unfold beep at hb
  cases fuel with
  | zero =>
    unfold beepLoop at hb
    rw [if_pos h0] at hb
    exact Option.noConfusion hb
  | succ fuel =>
    unfold beepLoop at hb
    rw [if_pos h0] at hb
    cases hr : beepLoop freq clock (clock 0 + length) fuel (0 + 1) (0 + 1) with
    | none => rw [hr] at hb; exact Option.noConfusion hb
    | some tl =>
      rw [hr] at hb
      simp only [Option.map_some', Option.some.injEq] at hb
      exact ⟨tl, hb.symm⟩

/-- A call of `beep` with length zero returns at once, without a write. -/
theorem beep_zero (freq : Int) (clock : Nat → Nat) (fuel : Nat) :
    beep freq clock 0 fuel = some [] := by
  have h0 : ¬ clock 0 + 0 > clock 0 := by omega
  unfold beep
  cases fuel with
  | zero => unfold beepLoop; rw [if_neg h0]
  | succ fuel => unfold beepLoop; rw [if_neg h0]

/-- With a dit of zero every event of a pattern has length zero. -/
theorem emitPattern_zero (p : List Char) :
    ∀ e ∈ emitPattern 0 p, eventLength e = 0 := by
  induction p with
  | nil => intro e he; exact absurd he (List.not_mem_nil e)
  | cons ch rest ih =>
    intro e he
    unfold emitPattern at he
    rcases List.mem_cons.1 he with h | h
    · rw [h]
      by_cases hc : ch = '.'
      · rw [if_pos hc]; rfl
      · rw [if_neg hc]; rfl
    · rcases List.mem_cons.1 h with h2 | h2
      · rw [h2]; rfl
      · exact ih e h2

/-- With a dit of zero every event of a loop iteration has length zero. -/
theorem processChar_zero (b : Nat) :
    ∀ e ∈ processChar 0 b, eventLength e = 0 := by
  intro e he
  unfold processChar at he
  by_cases hs : isspace (toupper b) = true
  · simp only [hs, if_true, List.mem_singleton] at he
    rw [he]; rfl
  · simp only [hs, Bool.false_eq_true, if_false] at he
    rw [scanTable_eq_findEntry] at he
    cases hf : findEntry (toupper b) chars with
    | none => rw [hf] at he; exact absurd he (List.not_mem_nil e)
    | some s =>
      rw [hf] at he
      simp only [emitEntry, List.mem_append, List.mem_singleton] at he
      rcases he with h | h
      · exact emitPattern_zero _ e h
      · rw [h]; rfl

/-- With a dit of zero every event of the read loop has length zero. -/
theorem transmit_zero (input : List Nat) :
    ∀ e ∈ transmit 0 input, eventLength e = 0 := by
  induction input with
  | nil => intro e he; exact absurd he (List.not_mem_nil e)
  | cons b rest ih =>
    intro e he
    have hstep : transmit 0 (b :: rest)
        = if b = 0xFF then [] else processChar 0 b ++ transmit 0 rest := rfl
    rw [hstep] at he
    by_cases hb : b = 0xFF
    · rw [if_pos hb] at he; exact absurd he (List.not_mem_nil e)
    · rw [if_neg hb] at he
      rcases List.mem_append.1 he with h | h
      · exact processChar_zero b e h
      · exact ih e h

/-! ## The claims -/

/-- C1: the table does not hold the International Morse Code pattern for every
supported character.  For `U` (byte 85) it holds dot dot dash dash where
International Morse Code has dot dot dash; `U` is the only supported character
whose entry differs, and the spot checks `A`, `S` and `0` hold. -/
theorem chars_U_differs_from_international :
    lookup 85 = some [Mark.DOT, Mark.DOT, Mark.DASH, Mark.DASH]
      ∧ referencePattern 85 = some [Mark.DOT, Mark.DOT, Mark.DASH]
      ∧ supported.filter (fun c => decide (lookup c ≠ referencePattern c)) = [85]
      ∧ lookup 65 = some [Mark.DOT, Mark.DASH]
      ∧ lookup 83 = some [Mark.DOT, Mark.DOT, Mark.DOT]
      ∧ lookup 48 = some [Mark.DASH, Mark.DASH, Mark.DASH, Mark.DASH, Mark.DASH] := by
  decide

/-- C2, as claimed, fails at `wpm = 18`: the dit is 66000 microseconds, while
`1200000 / 18` is 66666. -/
theorem ditMicros_18_is_not_quotient :
    ditMicros 18 = 66000 ∧ 1200000 / 18 = 66666 ∧ ditMicros 18 ≠ 1200000 / 18 := by
  decide

/-- C2, amended: for every `wpm >= 1` the dit is `(1200 / wpm) * 1000`
microseconds, the division done first; that is `1200000 / wpm` rounded down to
a whole number of milliseconds, so it never exceeds `1200000 / wpm` and falls
short of it by less than 1000.  For `wpm = 18` it is 66000. -/
theorem ditMicros_whole_milliseconds (wpm : Nat) (hw : 1 ≤ wpm) :
    ditMicros wpm = (1200 / wpm) * 1000
      ∧ ditMicros wpm = (1200000 / wpm) / 1000 * 1000
      ∧ ditMicros wpm ≤ 1200000 / wpm
      ∧ 1200000 / wpm < ditMicros wpm + 1000 := by
  have hpos : 0 < wpm := hw
  have hq : (1200000 / wpm) / 1000 = 1200 / wpm := by
    rw [Nat.div_div_eq_div_mul, Nat.mul_comm wpm 1000]
    show 1000 * 1200 / (1000 * wpm) = 1200 / wpm
    exact Nat.mul_div_mul_left 1200 wpm (show 0 < 1000 by decide)
  have hmod := Nat.div_add_mod (1200000 / wpm) 1000
  have hlt := Nat.mod_lt (1200000 / wpm) (show 0 < 1000 by decide)
  refine ⟨rfl, ?_, ?_, ?_⟩
  · rw [hq]; rfl
  · unfold ditMicros; rw [← hq]; omega
  · unfold ditMicros; rw [← hq]; omega

/-- Witness for `ditMicros_whole_milliseconds`, at the default `wpm = 18`. -/
theorem ditMicros_whole_milliseconds_witness :
    ditMicros 18 = (1200 / 18) * 1000
      ∧ ditMicros 18 = (1200000 / 18) / 1000 * 1000
      ∧ ditMicros 18 ≤ 1200000 / 18
      ∧ 1200000 / 18 < ditMicros 18 + 1000 :=
  ditMicros_whole_milliseconds 18 (by decide)

/-- C3: the silence between two words is not seven dits in total.  For
supported characters `a` and `b` sent as `a`, space, `b`, the last mark of `a`
is followed by one dit, then two dits, then the seven dits of the space: ten
dits pass before the first mark of `b`. -/
theorem word_gap_is_ten_dits (dit a b : Nat) (ha : a ∈ supported) (hb : b ∈ supported) :
    transmit dit [a, 32, b]
        = charEvents dit (marksOf a) ++ [Event.silence (7 * dit)]
            ++ charEvents dit (marksOf b)
      ∧ segments (transmit dit [a, 32, b])
        = markGaps dit (10 * dit) (marksOf a) ++ markGaps dit (3 * dit) (marksOf b) := by
  obtain ⟨_, _, haff, _, _⟩ := supported_facts a ha
  obtain ⟨_, _, hbff, _, _⟩ := supported_facts b hb
  obtain ⟨hpa, hna⟩ := processChar_supported dit a ha
  obtain ⟨hpb, hnb⟩ := processChar_supported dit b hb
  have hsp : processChar dit 32 = [Event.silence (7 * dit)] :=
    processChar_whitespace dit 32 (by decide)
  have htr : transmit dit [a, 32, b]
      = charEvents dit (marksOf a) ++ [Event.silence (7 * dit)]
          ++ charEvents dit (marksOf b) := by
    have h32 : (32 : Nat) ≠ 0xFF := by decide
    simp only [transmit, if_neg haff, if_neg hbff, if_neg h32, hpa, hpb, hsp,
      List.append_nil, List.append_assoc]
  refine ⟨htr, ?_⟩
  rw [htr, List.append_assoc, segments_charEvents dit _ hna]
  have hls : leadingSilence ([Event.silence (7 * dit)] ++ charEvents dit (marksOf b))
      = 7 * dit := by
    have h0 := leadingSilence_charEvents dit _ hnb []
    rw [List.append_nil] at h0
    show 7 * dit + leadingSilence (charEvents dit (marksOf b)) = 7 * dit
    rw [h0]
    rfl
  have hsg : segments ([Event.silence (7 * dit)] ++ charEvents dit (marksOf b))
      = markGaps dit (3 * dit) (marksOf b) := by
    have h1 := segments_charEvents dit _ hnb []
    rw [List.append_nil] at h1
    show segments (charEvents dit (marksOf b)) = markGaps dit (3 * dit) (marksOf b)
    rw [h1]
    simp [leadingSilence, segments]
  rw [hls, hsg]
  have harith : 3 * dit + 7 * dit = 10 * dit := by omega
  rw [harith]

/-- Witness for `word_gap_is_ten_dits`: `E`, space, `E` at the default dit of
66000 microseconds; 660000 microseconds of silence separate the two dots. -/
theorem word_gap_is_ten_dits_witness :
    transmit 66000 [69, 32, 69]
        = charEvents 66000 (marksOf 69) ++ [Event.silence (7 * 66000)]
            ++ charEvents 66000 (marksOf 69)
      ∧ segments (transmit 66000 [69, 32, 69])
        = markGaps 66000 (10 * 66000) (marksOf 69) ++ markGaps 66000 (3 * 66000) (marksOf 69) :=
  word_gap_is_ten_dits 66000 69 69 (by decide) (by decide)

/-- C5: for an input made only of supported characters, every mark is followed
by one dit of silence within its character and the last mark of each character
by three dits, and no silence of seven dits is emitted (for a dit above zero);
`SOS` at 20 words per minute, a dit of 60000 microseconds, is dot dot dot,
dash dash dash, dot dot dot with exactly those gaps. -/
theorem supported_input_trace (dit : Nat) (input : List Nat)
    (h : ∀ c ∈ input, c ∈ supported) :
    transmit dit input = input.flatMap (fun c => charEvents dit (marksOf c))
      ∧ segments (transmit dit input)
        = input.flatMap (fun c => markGaps dit (3 * dit) (marksOf c))
      ∧ (dit = 0 ∨ Event.silence (7 * dit) ∉ transmit dit input)
      ∧ ditMicros 20 = 60000
      ∧ (bytes "SOS").flatMap marksOf
        = [Mark.DOT, Mark.DOT, Mark.DOT, Mark.DASH, Mark.DASH, Mark.DASH,
            Mark.DOT, Mark.DOT, Mark.DOT]
      ∧ tones (transmit (ditMicros 20) (bytes "SOS"))
        = [60000, 60000, 60000, 180000, 180000, 180000, 60000, 60000, 60000]
      ∧ segments (transmit (ditMicros 20) (bytes "SOS"))
        = [(60000, 60000), (60000, 60000), (60000, 180000),
            (180000, 60000), (180000, 60000), (180000, 180000),
            (60000, 60000), (60000, 60000), (60000, 180000)] := by
  have htr := transmit_supported dit input h
  refine ⟨htr, ?_, ?_, by decide, by decide, by decide, by decide⟩
  · rw [htr]
    exact segments_flatMap_supported dit input h
  · by_cases hd : dit = 0
    · exact Or.inl hd
    · refine Or.inr ?_
      intro hmem
      rw [htr, List.mem_flatMap] at hmem
      obtain ⟨c, _, hc⟩ := hmem
      rcases mem_charEvents dit _ _ hc with ⟨t, ht⟩ | h1 | h2
      · exact Event.noConfusion ht
      · have := Event.silence.inj h1
        omega
      · have := Event.silence.inj h2
        omega

/-- Witness for `supported_input_trace`: the input `SOS` at a dit of 60000
microseconds. -/
theorem supported_input_trace_witness :
    transmit 60000 [83, 79, 83]
        = [Event.tone 60000, Event.silence 60000, Event.tone 60000, Event.silence 60000,
            Event.tone 60000, Event.silence 60000, Event.silence 120000,
            Event.tone 180000, Event.silence 60000, Event.tone 180000, Event.silence 60000,
            Event.tone 180000, Event.silence 60000, Event.silence 120000,
            Event.tone 60000, Event.silence 60000, Event.tone 60000, Event.silence 60000,
            Event.tone 60000, Event.silence 60000, Event.silence 120000]
      ∧ Event.silence (7 * 60000) ∉ transmit 60000 [83, 79, 83] := by
  have hw := supported_input_trace 60000 [83, 79, 83] (by decide)
  refine ⟨by decide, ?_⟩
  rcases hw.2.2.1 with h0 | hno
  · exact absurd h0 (by decide)
  · exact hno

/-- C6: a whitespace character (space, tab, newline, vertical tab, form feed,
carriage return) makes the loop emit one silence of seven dits and no tone,
then go on with the rest of the input; the input `CQ` followed by a space
gives the events of `C`, the events of `Q`, one silence of seven dits, and
nothing more. -/
theorem whitespace_trace (dit c : Nat) (rest : List Nat) (hc : c ∈ whitespace) :
    isspace c = true
      ∧ processChar dit c = [Event.silence (7 * dit)]
      ∧ tones (processChar dit c) = []
      ∧ transmit dit (c :: rest) = Event.silence (7 * dit) :: transmit dit rest
      ∧ transmit dit (bytes "CQ ")
        = [Event.tone (3 * dit), Event.silence dit, Event.tone dit, Event.silence dit,
            Event.tone (3 * dit), Event.silence dit, Event.tone dit, Event.silence dit,
            Event.silence (2 * dit),
            Event.tone (3 * dit), Event.silence dit, Event.tone (3 * dit), Event.silence dit,
            Event.tone dit, Event.silence dit, Event.tone (3 * dit), Event.silence dit,
            Event.silence (2 * dit),
            Event.silence (7 * dit)] := by
  have hfacts : isspace c = true ∧ c ≠ 0xFF := by
    revert c
    decide
  have hp := processChar_whitespace dit c hc
  have hstep : transmit dit (c :: rest)
      = if c = 0xFF then [] else processChar dit c ++ transmit dit rest := rfl
  refine ⟨hfacts.1, hp, ?_, ?_, ?_⟩
  · rw [hp]; rfl
  · rw [hstep, if_neg hfacts.2, hp]
    rfl
  · have hcq : transmit dit (bytes "CQ ")
        = [Event.tone (dit * 3), Event.silence dit, Event.tone dit, Event.silence dit,
            Event.tone (dit * 3), Event.silence dit, Event.tone dit, Event.silence dit,
            Event.silence (dit * 2),
            Event.tone (dit * 3), Event.silence dit, Event.tone (dit * 3), Event.silence dit,
            Event.tone dit, Event.silence dit, Event.tone (dit * 3), Event.silence dit,
            Event.silence (dit * 2),
            Event.silence (dit * 7)] := by
      rfl
    rw [hcq, Nat.mul_comm dit 3, Nat.mul_comm dit 2, Nat.mul_comm dit 7]

/-- Witness for `whitespace_trace`: a newline before the letter `E`, at a dit
of 60000 microseconds. -/
theorem whitespace_trace_witness :
    transmit 60000 [10, 69]
      = [Event.silence 420000, Event.tone 60000, Event.silence 60000, Event.silence 120000] := by
  have hw := (whitespace_trace 60000 10 [69] (by decide)).2.2.2.1
  rw [hw]
  decide

/-- C7: a character that is not whitespace, whose upper-case form is not a key
of the table and that is not the terminator `0xFF` makes the loop emit
nothing, and the loop goes on with the next character.  The control characters
other than whitespace and the bytes from `0x80` to `0xFE` are such
characters. -/
theorem unsupported_char_skipped (dit b : Nat) (rest : List Nat)
    (hs : isspace b = false) (hk : toupper b ∉ chars.map entryKey) (hff : b ≠ 0xFF) :
    processChar dit b = []
      ∧ transmit dit (b :: rest) = transmit dit rest
      ∧ (List.range 9 ++ List.range' 14 18 ++ List.range' 127 128).all
          (fun x => !isspace x && !decide (toupper x ∈ chars.map entryKey)) = true := by
  have hnone : lookup (toupper b) = none := by
    cases hf : findEntry (toupper b) chars with
    | none => simp [lookup, hf]
    | some s =>
      have hsome : (findEntry (toupper b) chars).isSome = true := by simp [hf]
      exact absurd ((findEntry_isSome _ _).1 hsome) hk
  have hp : processChar dit b = [] :=
    processChar_of_lookup_none dit b (by rw [isspace_toupper]; exact hs) hnone
  have hstep : transmit dit (b :: rest)
      = if b = 0xFF then [] else processChar dit b ++ transmit dit rest := rfl
  refine ⟨hp, ?_, by decide⟩
  rw [hstep, if_neg hff, hp]
  rfl

/-- Witness for `unsupported_char_skipped`: the byte `0xC8` between two
letters `E` leaves the trace of the two letters. -/
theorem unsupported_char_skipped_witness :
    processChar 60000 200 = [] ∧ transmit 60000 (200 :: [69]) = transmit 60000 [69] :=
  have hw := unsupported_char_skipped 60000 200 [69] (by decide) (by decide) (by decide)
  ⟨hw.1, hw.2.1⟩

/-- C8: the table has an entry for the character `c` exactly when `c` is one
of the 51 supported characters: `A`-`Z`, `0`-`9` and the fifteen punctuation
marks; for any other value the search finds nothing. -/
theorem lookup_isSome_iff_supported (c : Nat) :
    ((lookup c).isSome = true ↔ c ∈ supported)
      ∧ (findEntry c chars = none ↔ c ∉ supported)
      ∧ supported.length = 51
      ∧ supported.Nodup
      ∧ chars.length = 51 := by
  have hiff : (findEntry c chars).isSome = true ↔ c ∈ supported := by
    rw [findEntry_isSome]
    exact ⟨keys_eq_supported.1 c, keys_eq_supported.2 c⟩
  refine ⟨?_, ?_, by decide, by decide, by decide⟩
  · rw [← hiff]
    simp [lookup]
  · rw [← hiff]
    cases findEntry c chars <;> simp

/-- C9: every entry of the table has a pattern of at least one character, and
every pattern character is a dot or a hyphen; so the branch that plays a dash
for anything but a dot only ever sees a hyphen. -/
theorem chars_patterns_well_formed (s : String) (hs : s ∈ chars) :
    1 ≤ (entryPattern s).length
      ∧ (∀ ch ∈ entryPattern s, ch = '.' ∨ ch = '-')
      ∧ (∀ ch ∈ entryPattern s, markOf ch = Mark.DASH ↔ ch = '-') := by
  revert s
  decide

/-- Witness for `chars_patterns_well_formed`: the entry of `U`. -/
theorem chars_patterns_well_formed_witness :
    1 ≤ (entryPattern "U..--").length
      ∧ (∀ ch ∈ entryPattern "U..--", ch = '.' ∨ ch = '-')
      ∧ (∀ ch ∈ entryPattern "U..--", markOf ch = Mark.DASH ↔ ch = '-') :=
  chars_patterns_well_formed "U..--" (by decide)

/-- C10: for every frequency of at least 1, the time `beep` sleeps between
two writes of the line is `500000 / freq` microseconds, integer division, one
such sleep after each write; a frequency of 800 gives 625. -/
theorem beep_sleeps_half_period (freq : Int) (clock : Nat → Nat) (length fuel : Nat)
    (ops : List LineOp) (hf : 1 ≤ freq) (hb : beep freq clock length fuel = some ops) :
    halfPeriod freq = 500000 / freq.toNat
      ∧ (halfPeriod freq : Int) = 500000 / freq
      ∧ sleepArgs ops = List.replicate (writtenValues ops).length (500000 / freq.toNat)
      ∧ halfPeriod 800 = 625 := by
  have hn := halfPeriod_nat freq hf
  refine ⟨hn, ?_, ?_, by decide⟩
  · rw [hn]
    obtain ⟨n, rfl⟩ := Int.eq_ofNat_of_zero_le (show (0 : Int) ≤ freq by omega)
    rw [Int.toNat_natCast]
    exact Int.natCast_div 500000 n
  · rw [← hn]
    exact beepLoop_sleepArgs freq clock _ fuel 0 0 ops hb

/-- Witness for `beep_sleeps_half_period`: 800 Hz, a tone of 1000
microseconds, a clock that advances by 625 microseconds per sleep. -/
theorem beep_sleeps_half_period_witness :
    beep 800 (fun k => 625 * k) 1000 2
        = some [LineOp.write 0, LineOp.sleep 625, LineOp.write 1, LineOp.sleep 625]
      ∧ halfPeriod 800 = 500000 / (800 : Int).toNat
      ∧ sleepArgs [LineOp.write 0, LineOp.sleep 625, LineOp.write 1, LineOp.sleep 625]
        = List.replicate 2 (500000 / (800 : Int).toNat) :=
  have hb : beep 800 (fun k => 625 * k) 1000 2
      = some [LineOp.write 0, LineOp.sleep 625, LineOp.write 1, LineOp.sleep 625] := by
    decide
  have hw := beep_sleeps_half_period 800 (fun k => 625 * k) 1000 2 _ (by decide) hb
  ⟨hb, hw.1, hw.2.2.1⟩

/-- C11: a lower-case letter gives the same events as its upper-case letter,
alone and in front of any further input; `toupper` leaves the upper-case
letters, the digits, the supported punctuation and the whitespace characters
unchanged. -/
theorem lowercase_same_trace (dit b : Nat) (rest : List Nat)
    (hb : 97 ≤ b ∧ b ≤ 122) :
    toupper b = b - 32
      ∧ processChar dit b = processChar dit (b - 32)
      ∧ transmit dit [b] = transmit dit [b - 32]
      ∧ transmit dit (b :: rest) = transmit dit ((b - 32) :: rest)
      ∧ transmit dit [b] = charEvents dit (marksOf (b - 32))
      ∧ (supported ++ whitespace).all (fun c => decide (toupper c = c)) = true := by
  have hu : toupper b = b - 32 := by
    unfold toupper
    rw [if_pos hb]
  have hp : processChar dit b = processChar dit (b - 32) := by
    rw [← hu, processChar_toupper]
  have hff : b ≠ 0xFF := by omega
  have hff2 : b - 32 ≠ 0xFF := by omega
  have hstep : ∀ (x : Nat) (l : List Nat), transmit dit (x :: l)
      = if x = 0xFF then [] else processChar dit x ++ transmit dit l := fun _ _ => rfl
  have hsup : b - 32 ∈ supported := by
    have hmem : ∀ x, 65 ≤ x ∧ x ≤ 90 → x ∈ supported := by
      intro x hx
      have hx2 : x - 65 < 26 := by omega
      have hdec : ∀ i, i < 26 → 65 + i ∈ supported := by decide
      have := hdec (x - 65) hx2
      have hxe : 65 + (x - 65) = x := by omega
      rw [hxe] at this
      exact this
    exact hmem _ (by omega)
  refine ⟨hu, hp, ?_, ?_, ?_, by decide⟩
  · rw [hstep, hstep, if_neg hff, if_neg hff2, hp]
  · rw [hstep, hstep, if_neg hff, if_neg hff2, hp]
  · rw [hstep, if_neg hff, hp, (processChar_supported dit _ hsup).1]
    exact List.append_nil _

/-- Witness for `lowercase_same_trace`: the letter `s` (byte 115) and the
letter `S` (byte 83). -/
theorem lowercase_same_trace_witness :
    transmit 60000 [115] = transmit 60000 [83]
      ∧ transmit 60000 [115]
        = [Event.tone 60000, Event.silence 60000, Event.tone 60000, Event.silence 60000,
            Event.tone 60000, Event.silence 60000, Event.silence 120000] := by
  have hw := lowercase_same_trace 60000 115 [] (by decide)
  refine ⟨hw.2.2.1, ?_⟩
  rw [hw.2.2.1]
  decide

/-- C14: the read loop keeps no state between characters.  For inputs `s` and
`t` without the byte `0xFF`, the events of `s ++ t` are the events of `s`
followed by the events of `t`; the events of an input are the events of its
characters in order; a character sent twice gives its events twice. -/
theorem transmit_concat (dit : Nat) (s t : List Nat) (c : Nat)
    (hs : 0xFF ∉ s) (ht : 0xFF ∉ t) (hc : c ≠ 0xFF) :
    transmit dit (s ++ t) = transmit dit s ++ transmit dit t
      ∧ transmit dit s = s.flatMap (processChar dit)
      ∧ transmit dit (s ++ t) = (s ++ t).flatMap (processChar dit)
      ∧ transmit dit (s ++ [c] ++ t ++ [c])
        = transmit dit s ++ processChar dit c ++ transmit dit t ++ processChar dit c := by
  have hflat : ∀ l : List Nat, 0xFF ∉ l → transmit dit l = l.flatMap (processChar dit) := by
    intro l hl
    have h := transmit_append dit l [] hl
    rw [List.append_nil] at h
    rw [h]
    exact List.append_nil _
  have hst : 0xFF ∉ s ++ t := by
    intro h
    rcases List.mem_append.1 h with h | h
    · exact hs h
    · exact ht h
  have hc1 : 0xFF ∉ [c] := by
    intro h
    exact hc (List.mem_singleton.1 h).symm
  have hall : 0xFF ∉ s ++ [c] ++ t ++ [c] := by
    intro h
    simp only [List.mem_append, List.mem_singleton] at h
    rcases h with ((h | h) | h) | h
    · exact hs h
    · exact hc h.symm
    · exact ht h
    · exact hc h.symm
  refine ⟨?_, hflat s hs, hflat _ hst, ?_⟩
  · rw [transmit_append dit s t hs, hflat s hs]
  · rw [hflat _ hall, hflat s hs, hflat t ht]
    simp [List.flatMap_append]

/-- Witness for `transmit_concat`: the inputs `E` and `T`, and the character
`E` sent twice. -/
theorem transmit_concat_witness :
    transmit 60000 ([69] ++ [84]) = transmit 60000 [69] ++ transmit 60000 [84]
      ∧ transmit 60000 ([69] ++ [69] ++ [84] ++ [69])
        = transmit 60000 [69] ++ processChar 60000 69 ++ transmit 60000 [84]
            ++ processChar 60000 69 :=
  have hw := transmit_concat 60000 [69] [84] 69 (by decide) (by decide) (by decide)
  ⟨hw.1, hw.2.2.2⟩

/-- C15: end of input is not the only stop condition of the read loop.  An
input byte `0xFF` stops it: of the input `E`, `0xFF`, `E` only the first `E`
is transmitted, and whatever follows a byte `0xFF` is never read. -/
theorem byte_FF_stops_transmission :
    transmit 66000 [69, 0xFF, 69]
        = [Event.tone 66000, Event.silence 66000, Event.silence 132000]
      ∧ transmit 66000 [69, 69]
        = [Event.tone 66000, Event.silence 66000, Event.silence 132000,
            Event.tone 66000, Event.silence 66000, Event.silence 132000]
      ∧ transmit 66000 [69, 0xFF, 69] = transmit 66000 [69]
      ∧ (∀ (dit : Nat) (t : List Nat), transmit dit (0xFF :: t) = []) := by
  refine ⟨by decide, by decide, by decide, ?_⟩
  intro dit t
  rfl

/-- C13: the option `-g` does not accept the line number 0, which the usage
text `gpio, 0-31` announces: `-g 0` ends `main` with the fatal error of the
option.  The values accepted are exactly those from 1 to 31: `-g 1` and
`-g 31` are accepted, `-g 32` is not. -/
theorem gpio_zero_rejected (cfg : Config) (optarg : String) (hw : Hardware)
    (input : List Nat) :
    atoi "0" = 0
      ∧ applyOpt cfg (Opt.g "0") = Except.error (Failure.invalid 'g' 0)
      ∧ main [Opt.g "0"] hw input = Outcome.failed (Failure.invalid 'g' 0)
      ∧ applyOpt cfg (Opt.g "1") = Except.ok { cfg with gpio := 1 }
      ∧ applyOpt cfg (Opt.g "31") = Except.ok { cfg with gpio := 31 }
      ∧ applyOpt cfg (Opt.g "32") = Except.error (Failure.invalid 'g' 32)
      ∧ (-2 ^ 31 ≤ atoi optarg ∧ atoi optarg < 2 ^ 31 →
          ((∃ cfg1, applyOpt cfg (Opt.g optarg) = Except.ok cfg1)
            ↔ 1 ≤ atoi optarg ∧ atoi optarg ≤ 31)) := by
  have hgdef : applyOpt cfg (Opt.g optarg)
      = if atoi optarg ≥ 1 ∧ atoi optarg ≤ 31 then Except.ok { cfg with gpio := atoi optarg }
        else Except.error (Failure.invalid 'g' (atoi optarg)) := rfl
  refine ⟨by decide, rfl, rfl, rfl, rfl, rfl, ?_⟩
  intro _
  rw [hgdef]
  by_cases h : atoi optarg ≥ 1 ∧ atoi optarg ≤ 31
  · rw [if_pos h]
    exact ⟨fun _ => h, fun _ => ⟨_, rfl⟩⟩
  · rw [if_neg h]
    constructor
    · rintro ⟨cfg1, h1⟩
      exact Except.noConfusion h1
    · intro h1
      exact absurd h1 h

/-- C16: with the clock given as the sequence of its readings, `beep` writes
the line as long as the time elapsed since its first reading is below the
requested length and returns at the first reading that reaches it.  If every
iteration advances the clock by at least one microsecond, the loop ends for
every length, after `n` iterations with `n` at most the length. -/
theorem beep_terminates (freq : Int) (clock : Nat → Nat) (length : Nat)
    (hadv : ∀ k, clock k + 1 ≤ clock (k + 1)) :
    ∃ n, n ≤ length
      ∧ (∀ k, k < n → clock k - clock 0 < length)
      ∧ length ≤ clock n - clock 0
      ∧ (∀ fuel, n ≤ fuel → beep freq clock length fuel = some (beepOps freq 0 n))
      ∧ (writtenValues (beepOps freq 0 n)).length = n := by
  have hmono := clock_advance clock hadv
  have hex : ∃ k, clock 0 + length ≤ clock k := ⟨length, hmono length⟩
  classical
  refine ⟨Nat.find hex, Nat.find_min' hex (hmono length), ?_, ?_, ?_, ?_⟩
  · intro k hk
    have hlt := Nat.find_min hex hk
    have := hmono k
    omega
  · have := Nat.find_spec hex
    omega
  · intro fuel hfuel
    unfold beep
    apply beepLoop_first_reading freq clock _ (Nat.find hex) fuel 0 0 hfuel
    · intro j hj
      have hlt := Nat.find_min hex hj
      rw [Nat.zero_add]
      omega
    · have := Nat.find_spec hex
      rw [Nat.zero_add]
      omega
  · rw [writtenValues_beepOps, List.length_map, List.length_range]

/-- Witness for `beep_terminates`: a clock that advances by 625 microseconds
per iteration, a length of 1000 microseconds. -/
theorem beep_terminates_witness :
    ∃ n, n ≤ 1000
      ∧ (∀ k, k < n → (fun k => 625 * k) k - (fun k => 625 * k) 0 < 1000)
      ∧ 1000 ≤ (fun k => 625 * k) n - (fun k => 625 * k) 0
      ∧ (∀ fuel, n ≤ fuel →
          beep 800 (fun k => 625 * k) 1000 fuel = some (beepOps 800 0 n))
      ∧ (writtenValues (beepOps 800 0 n)).length = n :=
  beep_terminates 800 (fun k => 625 * k) 1000 (by intro k; show 625 * k + 1 ≤ 625 * (k + 1); omega)

/-- C17: under a clock on which every sleep lasts exactly the half-period
`h = 500000 / freq`, with `h >= 1`, a call of `beep` for `d` microseconds does
`d / h` rounded up iterations and returns: that many writes, the `k`-th of
value `k mod 2` (the first is 0), and the time slept, which is the time elapsed
at the return, is that number times `h`. -/
theorem beep_ideal_clock (freq : Int) (c0 d extra : Nat)
    (hf : 1 ≤ freq) (hh : 1 ≤ halfPeriod freq) :
    halfPeriod freq = 500000 / freq.toNat
      ∧ beep freq (fun k => c0 + k * halfPeriod freq) d (ceilDiv d (halfPeriod freq) + extra)
        = some (beepOps freq 0 (ceilDiv d (halfPeriod freq)))
      ∧ writtenValues (beepOps freq 0 (ceilDiv d (halfPeriod freq)))
        = (List.range (ceilDiv d (halfPeriod freq))).map (fun k => k % 2)
      ∧ (writtenValues (beepOps freq 0 (ceilDiv d (halfPeriod freq)))).length
        = ceilDiv d (halfPeriod freq)
      ∧ (sleepArgs (beepOps freq 0 (ceilDiv d (halfPeriod freq)))).sum
        = ceilDiv d (halfPeriod freq) * halfPeriod freq
      ∧ d ≤ ceilDiv d (halfPeriod freq) * halfPeriod freq
      ∧ ceilDiv d (halfPeriod freq) * halfPeriod freq < d + halfPeriod freq := by
  generalize hhe : halfPeriod freq = h at hh
  have hnat : h = 500000 / freq.toNat := by rw [← hhe]; exact halfPeriod_nat freq hf
  have hpos : 0 < h := hh
  have hdm := Nat.div_add_mod (d + h - 1) h
  have hml := Nat.mod_lt (d + h - 1) hpos
  have hcomm : h * ((d + h - 1) / h) = (d + h - 1) / h * h := Nat.mul_comm _ _
  have hup : d ≤ ceilDiv d h * h := by
    unfold ceilDiv
    omega
  have hlow : ceilDiv d h * h < d + h := by
    unfold ceilDiv
    omega
  have hwv : writtenValues (beepOps freq 0 (ceilDiv d h))
      = (List.range (ceilDiv d h)).map (fun k => k % 2) := by
    rw [writtenValues_beepOps]
    apply List.map_congr_left
    intro k _
    show (0 + k) % 2 = k % 2
    rw [Nat.zero_add]
  refine ⟨hnat, ?_, hwv, ?_, ?_, hup, hlow⟩
  · unfold beep
    apply beepLoop_first_reading freq _ _ (ceilDiv d h) _ 0 0 (Nat.le_add_right _ _)
    · intro j hj
      show c0 + 0 * h + d > c0 + (0 + j) * h
      have hj1 : (j + 1) * h ≤ ceilDiv d h * h := Nat.mul_le_mul_right h hj
      rw [Nat.succ_mul] at hj1
      rw [Nat.zero_mul, Nat.zero_add]
      omega
    · show ¬ c0 + 0 * h + d > c0 + (0 + ceilDiv d h) * h
      rw [Nat.zero_mul, Nat.zero_add]
      omega
  · rw [hwv, List.length_map, List.length_range]
  · rw [sleepArgs_beepOps, hhe, List.sum_replicate]
    rfl

/-- Witness for `beep_ideal_clock`: 800 Hz, so a half-period of 625
microseconds, and a length of 1000 microseconds: two writes, 0 then 1, and
1250 microseconds elapsed. -/
theorem beep_ideal_clock_witness :
    beep 800 (fun k => 0 + k * halfPeriod 800) 1000 (ceilDiv 1000 (halfPeriod 800) + 0)
        = some (beepOps 800 0 (ceilDiv 1000 (halfPeriod 800)))
      ∧ ceilDiv 1000 (halfPeriod 800) = 2
      ∧ writtenValues (beepOps 800 0 (ceilDiv 1000 (halfPeriod 800))) = [0, 1]
      ∧ ceilDiv 1000 (halfPeriod 800) * halfPeriod 800 = 1250 := by
  have hw := beep_ideal_clock 800 0 1000 0 (by decide) (by decide)
  refine ⟨hw.2.1, by decide, ?_, by decide⟩
  rw [hw.2.2.1]
  decide

/-- C18, as claimed, fails: no call of `beep` with a length above zero and
below the half-period returns without a write. -/
theorem no_beep_without_write :
    ¬ ∃ (freq : Int) (clock : Nat → Nat) (length fuel : Nat) (ops : List LineOp),
        0 < length ∧ length < halfPeriod freq
          ∧ beep freq clock length fuel = some ops ∧ writtenValues ops = [] := by
  rintro ⟨freq, clock, length, fuel, ops, hpos, _, hb, hw⟩
  obtain ⟨rest, hr⟩ := beep_first_write freq clock length fuel ops hpos hb
  rw [hr] at hw
  exact List.noConfusion hw

/-- C18, amended: when the half-period exceeds the requested length, the first
write is still made.  A call of `beep` with a length above zero and below the
half-period, whose first sleep lasts at least the half-period, does exactly
one write, of value 0, and returns; any call with a length above zero that
returns begins with that write; only a call with length zero does no write. -/
theorem beep_short_length_writes_once (freq : Int) (clock : Nat → Nat) (length fuel : Nat)
    (hpos : 0 < length) (hlt : length < halfPeriod freq)
    (hsleep : clock 0 + halfPeriod freq ≤ clock 1) :
    beep freq clock length (fuel + 1)
        = some [LineOp.write 0, LineOp.sleep (halfPeriod freq)]
      ∧ writtenValues [LineOp.write 0, LineOp.sleep (halfPeriod freq)] = [0]
      ∧ (∀ (clock2 : Nat → Nat) (fuel2 : Nat) (ops : List LineOp),
          beep freq clock2 length fuel2 = some ops →
            ∃ rest, ops = LineOp.write 0 :: LineOp.sleep (halfPeriod freq) :: rest)
      ∧ beep freq clock 0 fuel = some [] := by
  refine ⟨?_, rfl, ?_, beep_zero freq clock fuel⟩
  · unfold beep
    have h := beepLoop_first_reading freq clock (clock 0 + length) 1 (fuel + 1) 0 0
      (by omega)
      (by
        intro j hj
        have hj0 : j = 0 := by omega
        rw [hj0]
        show clock 0 + length > clock 0
        omega)
      (by
        show ¬ clock 0 + length > clock 1
        omega)
    rw [h]
    rfl
  · intro clock2 fuel2 ops hb
    exact beep_first_write freq clock2 length fuel2 ops hpos hb

/-- Witness for `beep_short_length_writes_once`: at 800 Hz the half-period is
625 microseconds; a call for 100 microseconds writes the line once. -/
theorem beep_short_length_writes_once_witness :
    beep 800 (fun k => 625 * k) 100 (0 + 1)
      = some [LineOp.write 0, LineOp.sleep (halfPeriod 800)] :=
  (beep_short_length_writes_once 800 (fun k => 625 * k) 100 0 (by decide) (by decide)
    (by decide)).1

/-- C19: the dit is `(1200 / wpm) * 1000`, the division done first.  For an
accepted `wpm` up to 1200 it is a positive multiple of 1000 microseconds; for
an accepted `wpm` above 1200 it is 0, every tone and silence of the read loop
then has length 0, and each call of `beep` returns without a write. -/
theorem dit_zero_above_1200 (wpm : Nat) (hw : 1 ≤ wpm) :
    ditMicros wpm = (1200 / wpm) * 1000
      ∧ 1000 ∣ ditMicros wpm
      ∧ (wpm ≤ 1200 → 0 < ditMicros wpm)
      ∧ (1200 < wpm →
          ditMicros wpm = 0
            ∧ (∀ (input : List Nat) (e : Event),
                e ∈ transmit (ditMicros wpm) input → eventLength e = 0)
            ∧ (∀ (input : List Nat) (len : Nat) (freq : Int) (clock : Nat → Nat) (fuel : Nat),
                Event.tone len ∈ transmit (ditMicros wpm) input →
                  beep freq clock len fuel = some [])) := by
  refine ⟨rfl, ⟨1200 / wpm, Nat.mul_comm _ _⟩, ?_, ?_⟩
  · intro hle
    have hq : 0 < 1200 / wpm := Nat.div_pos hle hw
    unfold ditMicros
    omega
  · intro hgt
    have hq : 1200 / wpm = 0 := Nat.div_eq_of_lt hgt
    have hz : ditMicros wpm = 0 := by
      unfold ditMicros
      rw [hq]
    refine ⟨hz, ?_, ?_⟩
    · intro input e he
      rw [hz] at he
      exact transmit_zero input e he
    · intro input len freq clock fuel he
      rw [hz] at he
      have hlen : len = 0 := transmit_zero input _ he
      rw [hlen]
      exact beep_zero freq clock fuel

/-- Witness for `dit_zero_above_1200`: at 1201 words per minute the dit is 0
and the letter `E` is sent as a tone and two silences of length 0; at 1200
words per minute the dit is 1000 microseconds. -/
theorem dit_zero_above_1200_witness :
    ditMicros 1201 = 0
      ∧ transmit (ditMicros 1201) [69] = [Event.tone 0, Event.silence 0, Event.silence 0]
      ∧ 0 < ditMicros 1200
      ∧ ditMicros 1200 = 1000 := by
  have h1 := dit_zero_above_1200 1201 (by decide)
  have h2 := dit_zero_above_1200 1200 (by decide)
  exact ⟨(h1.2.2.2 (by decide)).1, by decide, h2.2.2.1 (by decide), by decide⟩

/-- C20: the table is unambiguous in both directions.  No two entries have the
same key, so the search finds each entry under its own key; no two entries
have the same pattern, so two supported characters with the same marks are the
same character. -/
theorem chars_unambiguous :
    (chars.map entryKey).Nodup
      ∧ chars.all (fun s => decide (findEntry (entryKey s) chars = some s)) = true
      ∧ (chars.map entryPattern).Nodup
      ∧ (chars.map (fun s => (entryPattern s).map markOf)).Nodup
      ∧ (supported.map marksOf).Nodup
      ∧ (∀ a ∈ supported, ∀ b ∈ supported, marksOf a = marksOf b → a = b) := by
  have hnd : (supported.map marksOf).Nodup := by decide
  refine ⟨by decide, by decide, by decide, by decide, hnd, ?_⟩
  intro a ha b hb hab
  exact List.inj_on_of_nodup_map hnd ha hb hab

end Morse
